import Mathlib

/-!
Shallow embedding of the Go package clock (src/clock.go).

The package wraps the standard library type time.Time behind a Clock
interface with two implementations: sysClock (delegates to time.Now)
and fake (a stored time.Time guarded by a sync.RWMutex, mutated only by
Add and Set).

Go's time.Time is modelled at the level of its observable
representation: the internal seconds (seconds since January 1 of year 1,
the value the unexported method sec() returns, stored as an int64), the
nanosecond offset within the second (0 ≤ nsec < 10^9), the optional
monotonic clock reading (the ext field when the hasMonotonic bit is
set), and the Location.  The int64 behaviour of the Go code is kept:

  - time.Duration is an int64 count of nanoseconds; duration arithmetic
    performed by a Go program (such as d1+d2) wraps around, modelled by
    wrap64;
  - Time.Add splits the duration with truncated division, carries into
    the seconds, and updates the seconds through addSec, which SATURATES
    the int64 seconds at 9223372036854775807 / -9223372036854775807
    instead of wrapping;
  - a time carrying a monotonic reading stores its wall seconds in a
    33-bit window of seconds since January 1 of year 1885
    (wallToInternal = 59453308800); when Add moves the wall clock out of
    that window, or when adding the duration to the monotonic reading
    overflows int64, the monotonic reading is STRIPPED;
  - time.Unix builds a wall-only time in the Local location and
    Time.UTC sets the location to UTC, stripping any monotonic reading.
-/

namespace ClockSpec

/-- A Go time.Location, compared by identity of the location value.
UTC and Local are the two distinguished package-level locations;
`other` stands for any location obtained from FixedZone or LoadLocation. -/
inductive Loc where
  | utc
  | localLoc
  | other (id : Nat)
  deriving DecidableEq, Repr

/-- Model of Go time.Time: `sec` is the internal int64 seconds since
January 1 of year 1 (what the unexported method sec() returns), `nsec`
the nanoseconds within the second, `mono` the optional monotonic clock
reading (the ext field when the hasMonotonic bit is set), `loc` the
Location. -/
structure Time where
  sec : Int
  nsec : Int
  mono : Option Int
  loc : Loc
  deriving DecidableEq, Repr

/-- Model of Go time.Duration: a signed int64 count of nanoseconds.
Representable durations are characterised by inI64; arithmetic a Go
program performs on durations wraps, which wrap64 models. -/
abbrev Duration := Int

/-- The int64 range: -2^63 ≤ x ≤ 2^63 - 1. -/
def inI64 (x : Int) : Prop :=
  -9223372036854775808 ≤ x ∧ x ≤ 9223372036854775807

instance (x : Int) : Decidable (inI64 x) :=
  inferInstanceAs (Decidable (_ ∧ _))

/-- Two's-complement int64 wraparound: the unique value congruent to x
modulo 2^64 inside the int64 range.  This is what Go's + computes on
int64 operands such as two Durations. -/
def wrap64 (x : Int) : Int :=
  Int.emod (x + 9223372036854775808) 18446744073709551616 - 9223372036854775808

/-- Go time.addSec's update of the slow-path seconds: the sum when it
stays inside int64, otherwise saturation at 9223372036854775807 for a
positive delta and -9223372036854775807 for a negative one, exactly as
the overflow check in addSec writes t.ext. -/
def satAdd64 (s ds : Int) : Int :=
  if -9223372036854775808 ≤ s + ds ∧ s + ds ≤ 9223372036854775807 then s + ds
  else if 0 < ds then 9223372036854775807 else -9223372036854775807

/-- The whole-seconds part of a duration after the nanosecond carry of
Go Time.Add: dsec = d / 1e9 (truncated), incremented when the
nanoseconds overflow upward and decremented when they underflow. -/
def dsecAdj (nsec d : Int) : Int :=
  if 1000000000 ≤ nsec + Int.tmod d 1000000000 then Int.tdiv d 1000000000 + 1
  else if nsec + Int.tmod d 1000000000 < 0 then Int.tdiv d 1000000000 - 1
  else Int.tdiv d 1000000000

/-- The nanosecond field after the carry of Go Time.Add: nsec + d%1e9,
brought back into [0, 1e9) by the same two branches as dsecAdj. -/
def nsecAdj (nsec d : Int) : Int :=
  if 1000000000 ≤ nsec + Int.tmod d 1000000000 then
    nsec + Int.tmod d 1000000000 - 1000000000
  else if nsec + Int.tmod d 1000000000 < 0 then
    nsec + Int.tmod d 1000000000 + 1000000000
  else nsec + Int.tmod d 1000000000

/-- Go Time.Add d.  The duration is split into seconds and nanoseconds
with truncated division and the carry folded into the seconds delta.
For a wall-only time, addSec saturates the int64 seconds.  For a time
with a monotonic reading, addSec first tries the 33-bit window of
seconds since 1885 (wallToInternal = 59453308800, window top
8589934591): inside the window the seconds move exactly and the
monotonic reading moves by d unless that addition leaves the int64
range, which strips the reading; outside the window the reading is
stripped and the saturating slow path updates the seconds.  The
Location is never touched. -/
def Time.Add : Time → Duration → Time
  | ⟨s, n, none, l⟩, d =>
      ⟨satAdd64 s (dsecAdj n d), nsecAdj n d, none, l⟩
  | ⟨s, n, some m, l⟩, d =>
      if 0 ≤ s - 59453308800 + dsecAdj n d ∧
          s - 59453308800 + dsecAdj n d ≤ 8589934591 then
        if -9223372036854775808 ≤ m + d ∧ m + d ≤ 9223372036854775807 then
          ⟨s + dsecAdj n d, nsecAdj n d, some (m + d), l⟩
        else
          ⟨s + dsecAdj n d, nsecAdj n d, none, l⟩
      else
        ⟨satAdd64 s (dsecAdj n d), nsecAdj n d, none, l⟩

/-- Go Time.UTC: same instant with the location set to UTC; setLoc
strips the monotonic clock reading. -/
def Time.UTC (t : Time) : Time :=
  { sec := t.sec, nsec := t.nsec, mono := none, loc := Loc.utc }

/-- Go time.Unix sec nsec: nanoseconds outside [0, 1e9) are normalised
into the seconds, and the internal seconds are sec + unixToInternal
(unixToInternal = 62135596800, the seconds from year 1 to 1970), an
int64 addition that wraps.  The result is wall-only, in the Local
location. -/
def timeUnix (sec0 nsec0 : Int) : Time :=
  let p :=
    if nsec0 < 0 ∨ 1000000000 ≤ nsec0 then
      let q := Int.tdiv nsec0 1000000000
      let sec1 := wrap64 (sec0 + q)
      let nsec1 := nsec0 - q * 1000000000
      if nsec1 < 0 then (wrap64 (sec1 - 1), nsec1 + 1000000000) else (sec1, nsec1)
    else (sec0, nsec0)
  { sec := wrap64 (p.1 + 62135596800), nsec := p.2, mono := none, loc := Loc.localLoc }

/-- Nanoseconds since the Unix epoch: the absolute instant a Time
denotes, the quantity time.Time.Equal compares. -/
def Time.instNanos (t : Time) : Int :=
  (t.sec - 62135596800) * 1000000000 + t.nsec

/-- A Time value that Go can actually represent: int64 seconds, the
nanosecond field inside [0, 1e9), and, when a monotonic reading is
present, an int64 reading with the wall seconds inside the 33-bit
window of seconds since 1885. -/
def monoOK : Int → Option Int → Prop
  | _, none => True
  | sec, some m =>
      -9223372036854775808 ≤ m ∧ m ≤ 9223372036854775807 ∧
      59453308800 ≤ sec ∧ sec ≤ 59453308800 + 8589934591

instance (sec : Int) (o : Option Int) : Decidable (monoOK sec o) :=
  match o with
  | none => isTrue trivial
  | some _ => inferInstanceAs (Decidable (_ ∧ _))

/-- Validity of a Time value: every value produced by the Go time
package satisfies this. -/
def ValidTime (t : Time) : Prop :=
  -9223372036854775808 ≤ t.sec ∧ t.sec ≤ 9223372036854775807 ∧
  0 ≤ t.nsec ∧ t.nsec < 1000000000 ∧ monoOK t.sec t.mono

instance (t : Time) : Decidable (ValidTime t) :=
  inferInstanceAs (Decidable (_ ∧ _ ∧ _ ∧ _ ∧ _))

/-- The state of the unexported Go struct fake: its single field t.
The sync.RWMutex only serialises access and holds no data, so it does
not appear in the state. -/
structure Fake where
  t : Time
  deriving DecidableEq, Repr

/-- NewFake (src/clock.go lines 51-56): a fresh fake whose time is
time.Unix(0, 0).UTC(). -/
def NewFake : Fake :=
  { t := (timeUnix 0 0).UTC }

/-- fake.Now (src/clock.go lines 79-83): returns the stored time and
leaves the state unchanged; modelled with explicit state passing so
the absence of a state change is a theorem, not a convention. -/
def Fake.NowS (f : Fake) : Time × Fake :=
  (f.t, f)

/-- The value fake.Now returns. -/
def Fake.Now (f : Fake) : Time :=
  f.t

/-- fake.Add (src/clock.go lines 85-89): f.t = f.t.Add(d). -/
def Fake.Add (f : Fake) (d : Duration) : Fake :=
  { t := f.t.Add d }

/-- fake.Set (src/clock.go lines 91-95): f.t = t. -/
def Fake.Set (_f : Fake) (t : Time) : Fake :=
  { t := t }

/-- The instant time.Unix(0, 0).UTC() stored by NewFake: internal
seconds 62135596800 (the Unix epoch), nanosecond 0, no monotonic
reading, location UTC. -/
def epochUTC : Time :=
  { sec := 62135596800, nsec := 0, mono := none, loc := Loc.utc }

/-- Go struct sysClock: an empty struct with no fields, hence no
mutable state. -/
structure sysClock where
  deriving DecidableEq, Repr

/-- The package-level value systemClock = sysClock\x7b\x7d (src/clock.go
line 24). -/
def systemClock : sysClock :=
  {}

/-- Default (src/clock.go lines 27-32): returns the package-level
systemClock value on every call. -/
def Default : sysClock :=
  systemClock

/-- sysClock.Now (src/clock.go lines 44-46): returns time.Now().  The
host wall clock is an oracle supplied as an argument; returning it
verbatim is the translation of the single statement return time.Now(). -/
def sysClock.Now (_s : sysClock) (host : Time) : Time :=
  host

/-- A heap of fake clocks.  Go's NewFake returns the address of a
freshly allocated fake struct, distinct from every live allocation;
the heap records the next fresh address and the stored time of each
allocated cell. -/
structure Heap where
  next : Nat
  mem : Nat → Time

/-- NewFake at the heap level: allocate a fresh cell holding the epoch
in UTC and hand back its address. -/
def newFakeH (h : Heap) : Nat × Heap :=
  (h.next, { next := h.next + 1, mem := Function.update h.mem h.next epochUTC })

/-- The two mutation operations of the FakeClock interface. -/
inductive MutOp where
  | addOp (d : Duration)
  | setOp (t : Time)
  deriving DecidableEq, Repr

/-- One mutation applied through the handle r: Add and Set write only
the cell r points to, as the Go methods write only their receiver. -/
def applyMut (r : Nat) (op : MutOp) (h : Heap) : Heap :=
  match op with
  | MutOp.addOp d => { h with mem := Function.update h.mem r ((h.mem r).Add d) }
  | MutOp.setOp t => { h with mem := Function.update h.mem r t }

/-- A sequence of mutations applied through the handle r. -/
def applyMuts (r : Nat) (ops : List MutOp) (h : Heap) : Heap :=
  ops.foldl (fun h op => applyMut r op h) h

/-- fake.Now through the handle r: read the cell r points to. -/
def nowH (h : Heap) (r : Nat) : Time :=
  h.mem r

/-- The operations the package exposes, each with its arguments. -/
inductive ClockOp where
  | defaultOp
  | newFakeOp
  | sysNowOp
  | fakeNowOp (f : Fake)
  | fakeAddOp (f : Fake) (d : Duration)
  | fakeSetOp (f : Fake) (t : Time)
  deriving DecidableEq, Repr

/-- The possible results of an operation. -/
inductive Res where
  | clockR (c : sysClock)
  | fakeR (f : Fake)
  | timeR (t : Time)
  deriving DecidableEq, Repr

/-- Running one operation.  A failing path in the Go code — a panic, or
an error return — would be translated to none; every branch below is
some because clock.go contains no such path. -/
def runOp (host : Time) : ClockOp → Option Res
  | ClockOp.defaultOp => some (Res.clockR Default)
  | ClockOp.newFakeOp => some (Res.fakeR NewFake)
  | ClockOp.sysNowOp => some (Res.timeR (Default.Now host))
  | ClockOp.fakeNowOp f => some (Res.timeR f.Now)
  | ClockOp.fakeAddOp f d => some (Res.fakeR (f.Add d))
  | ClockOp.fakeSetOp f t => some (Res.fakeR (f.Set t))

/-- A sequence of Add calls applied to one fake clock, in the order in
which the write lock serialised them. -/
def applyAdds (ds : List Duration) (f : Fake) : Fake :=
  ds.foldl Fake.Add f

/-- The saturating clock state the add_saturates counterexample uses:
the latest representable time.Time, reachable as
time.Unix(9223372036854775807 - 62135596800, 0). -/
def maxSecT : Time :=
  timeUnix (9223372036854775807 - 62135596800) 0

end ClockSpec

namespace ClockSpec

/-- The remainder of a duration by 1e9 with Go's truncated %, as used
by Time.Add, lies strictly between -1e9 and 1e9 and has the sign of
the duration. -/
theorem tmod_ns_bounds (d : Int) :
    -1000000000 < Int.tmod d 1000000000 ∧ Int.tmod d 1000000000 < 1000000000 ∧
    (0 ≤ d → 0 ≤ Int.tmod d 1000000000) ∧ (d < 0 → Int.tmod d 1000000000 ≤ 0) := by
  cases d with
  | ofNat m =>
      have h : (Int.ofNat m).tmod 1000000000 = ((m % 1000000000 : Nat) : Int) := rfl
      rw [h, show Int.ofNat m = (m : Int) from rfl]
      have hlt : m % 1000000000 < 1000000000 := Nat.mod_lt m (by decide)
      omega
  | negSucc m =>
      have h : (Int.negSucc m).tmod 1000000000 = -(((m + 1) % 1000000000 : Nat) : Int) := rfl
      rw [h, Int.negSucc_eq]
      have hlt : (m + 1) % 1000000000 < 1000000000 := Nat.mod_lt (m + 1) (by decide)
      omega

/-- The nanosecond carry of Time.Add is exact: the adjusted nanosecond
field lands in [0, 1e9) and, for any seconds base, moving the seconds
by the adjusted delta and the nanoseconds to the adjusted field adds
exactly d nanoseconds in total. -/
theorem adj_spec (nsec d : Int) (h1 : 0 ≤ nsec) (h2 : nsec < 1000000000) :
    0 ≤ nsecAdj nsec d ∧ nsecAdj nsec d < 1000000000 ∧
    ∀ s : Int, (s + dsecAdj nsec d) * 1000000000 + nsecAdj nsec d
      = s * 1000000000 + nsec + d := by
  obtain ⟨hb1, hb2, hb3, hb4⟩ := tmod_ns_bounds d
  have hid := Int.tdiv_add_tmod d 1000000000
  unfold nsecAdj dsecAdj
  split_ifs with hA hB
  · exact ⟨by omega, by omega, fun s => by omega⟩
  · exact ⟨by omega, by omega, fun s => by omega⟩
  · exact ⟨by omega, by omega, fun s => by omega⟩

/-- For an int64 duration, the carried seconds delta of Time.Add is at
most 9223372037 in magnitude. -/
theorem dsecAdj_bound (nsec d : Int) (hd : inI64 d) :
    -9223372037 ≤ dsecAdj nsec d ∧ dsecAdj nsec d ≤ 9223372037 := by
  obtain ⟨hb1, hb2, hb3, hb4⟩ := tmod_ns_bounds d
  have hid := Int.tdiv_add_tmod d 1000000000
  obtain ⟨hd1, hd2⟩ := hd
  unfold dsecAdj
  split_ifs <;> constructor <;> omega

/-- addSec's seconds update is the exact sum when the sum stays inside
int64. -/
theorem satAdd64_eq {s ds : Int} (h1 : -9223372036854775808 ≤ s + ds)
    (h2 : s + ds ≤ 9223372036854775807) : satAdd64 s ds = s + ds := by
  unfold satAdd64
  rw [if_pos ⟨h1, h2⟩]

/-- addSec's seconds update never leaves the int64 range. -/
theorem satAdd64_mem (s ds : Int) :
    -9223372036854775808 ≤ satAdd64 s ds ∧ satAdd64 s ds ≤ 9223372036854775807 := by
  unfold satAdd64
  split_ifs <;> constructor <;> omega

/-- Adding to a wall-only time yields a wall-only time: no branch of
Time.Add introduces a monotonic reading. -/
theorem Add_mono_none {t : Time} (hm : t.mono = none) (d : Duration) :
    (t.Add d).mono = none := by
  obtain ⟨s, n, mo, l⟩ := t
  dsimp only at hm
  subst hm
  rfl

/-- Time.Add never touches the Location, in any of its branches. -/
theorem Add_loc (t : Time) (d : Duration) : (t.Add d).loc = t.loc := by
  obtain ⟨s, n, mo, l⟩ := t
  cases mo with
  | none => rfl
  | some m =>
      simp only [Time.Add]
      split_ifs <;> rfl

/-- As long as the carried seconds stay inside int64 (no saturation),
Time.Add moves the stored instant by exactly d nanoseconds, keeps the
location, updates the seconds by the carried delta, and yields a valid
time. -/
theorem Add_spec (t : Time) (d : Duration) (hv : ValidTime t)
    (hs1 : -9223372036854775808 ≤ t.sec + dsecAdj t.nsec d)
    (hs2 : t.sec + dsecAdj t.nsec d ≤ 9223372036854775807) :
    (t.Add d).sec = t.sec + dsecAdj t.nsec d ∧
    (t.Add d).loc = t.loc ∧
    (t.Add d).instNanos = t.instNanos + d ∧
    ValidTime (t.Add d) := by
  obtain ⟨hva, hvb, hvc, hvd, hmo⟩ := hv
  obtain ⟨s, n, mo, l⟩ := t
  dsimp only at hva hvb hvc hvd hmo hs1 hs2 ⊢
  obtain ⟨hn1, hn2, hident⟩ := adj_spec n d hvc hvd
  cases mo with
  | none =>
      have hsat := satAdd64_eq hs1 hs2
      refine ⟨hsat, rfl, ?_, ?_⟩
      · dsimp only [Time.Add, Time.instNanos]
        rw [hsat]
        have := hident (s - 62135596800)
        omega
      · dsimp only [Time.Add]
        rw [hsat]
        simp only [ValidTime, monoOK, and_true]
        omega
  | some m =>
      dsimp only [monoOK] at hmo
      dsimp only [Time.Add]
      split_ifs with hw hr
      · refine ⟨rfl, rfl, ?_, ?_⟩
        · dsimp only [Time.instNanos]
          have := hident (s - 62135596800)
          omega
        · simp only [ValidTime, monoOK, and_true]
          omega
      · refine ⟨rfl, rfl, ?_, ?_⟩
        · dsimp only [Time.instNanos]
          have := hident (s - 62135596800)
          omega
        · simp only [ValidTime, monoOK, and_true]
          omega
      · have hsat := satAdd64_eq hs1 hs2
        refine ⟨hsat, rfl, ?_, ?_⟩
        · dsimp only [Time.instNanos]
          rw [hsat]
          have := hident (s - 62135596800)
          omega
        · rw [hsat]
          simp only [ValidTime, monoOK, and_true]
          omega

/-- Time.Add maps valid times to valid times, for every duration: the
saturating seconds update and the stripping of the monotonic reading
keep every field in its representable range. -/
theorem valid_Add (t : Time) (d : Duration) (hv : ValidTime t) :
    ValidTime (t.Add d) := by
  obtain ⟨hva, hvb, hvc, hvd, hmo⟩ := hv
  obtain ⟨s, n, mo, l⟩ := t
  dsimp only at hva hvb hvc hvd hmo
  obtain ⟨hn1, hn2, _⟩ := adj_spec n d hvc hvd
  cases mo with
  | none =>
      have hm := satAdd64_mem s (dsecAdj n d)
      simp only [Time.Add, ValidTime, monoOK, and_true]
      omega
  | some m =>
      dsimp only [monoOK] at hmo
      dsimp only [Time.Add]
      split_ifs with hw hr
      · simp only [ValidTime, monoOK, and_true]
        omega
      · simp only [ValidTime, monoOK, and_true]
        omega
      · have hm := satAdd64_mem s (dsecAdj n d)
        simp only [ValidTime, monoOK, and_true]
        omega

/-- Two wall-only valid-range times with the same location and the same
absolute instant are the same value: the seconds/nanoseconds split is
unique once the nanosecond field is confined to [0, 1e9). -/
theorem time_eq_of_wall {a b : Time} (hma : a.mono = none) (hmb : b.mono = none)
    (hl : a.loc = b.loc) (ha1 : 0 ≤ a.nsec) (ha2 : a.nsec < 1000000000)
    (hb1 : 0 ≤ b.nsec) (hb2 : b.nsec < 1000000000)
    (hi : a.instNanos = b.instNanos) : a = b := by
  obtain ⟨s1, n1, mo1, l1⟩ := a
  obtain ⟨s2, n2, mo2, l2⟩ := b
  dsimp only [Time.instNanos] at hma hmb hl ha1 ha2 hb1 hb2 hi
  subst hma
  subst hmb
  subst hl
  have e1 : s1 = s2 := by omega
  have e2 : n1 = n2 := by omega
  subst e1
  subst e2
  rfl

/-- The time NewFake stores is the epoch in UTC with no monotonic
reading. -/
theorem newFake_t : NewFake.t = epochUTC := by decide

/-- The epoch in UTC is a representable Go time value. -/
theorem epochUTC_valid : ValidTime epochUTC := by decide

/-- fake.Now returns the stored field t, stated abstractly so that
rewriting with it never evaluates the clock value. -/
theorem fake_now_t (f : Fake) : f.Now = f.t :=
  rfl

/-- The stored time of a folded Add sequence at the Fake level is the
folded Time.Add at the Time level. -/
theorem applyAdds_t (ds : List Duration) (f : Fake) :
    (applyAdds ds f).t = List.foldl Time.Add f.t ds := by
  induction ds generalizing f with
  | nil => rfl
  | cons d ds ih =>
      show (applyAdds ds (f.Add d)).t = _
      rw [ih]
      rfl

/-- Folding Time.Add preserves validity. -/
theorem foldl_Add_valid (ds : List Duration) (t : Time) (hv : ValidTime t) :
    ValidTime (List.foldl Time.Add t ds) := by
  induction ds generalizing t with
  | nil => exact hv
  | cons d ds ih => exact ih (t.Add d) (valid_Add t d hv)

/-- Folding Time.Add preserves the location. -/
theorem foldl_Add_loc (ds : List Duration) (t : Time) :
    (List.foldl Time.Add t ds).loc = t.loc := by
  induction ds generalizing t with
  | nil => rfl
  | cons d ds ih =>
      show (List.foldl Time.Add (t.Add d) ds).loc = t.loc
      rw [ih (t.Add d), Add_loc]

/-- As long as enough int64 seconds headroom remains for every element,
folding Time.Add over a list of int64 durations from a wall-only valid
time moves the instant by exactly the sum of the list, keeps the
location, and stays wall-only. -/
theorem foldl_Add_exact (ds : List Duration) :
    ∀ t : Time, ValidTime t → t.mono = none → (∀ d ∈ ds, inI64 d) →
    -9223372036854775808 + 9223372037 * (ds.length : Int) ≤ t.sec →
    t.sec ≤ 9223372036854775807 - 9223372037 * (ds.length : Int) →
    (List.foldl Time.Add t ds).instNanos = t.instNanos + ds.sum ∧
    (List.foldl Time.Add t ds).loc = t.loc ∧
    (List.foldl Time.Add t ds).mono = none := by
  induction ds with
  | nil =>
      intro t _ hm _ _ _
      exact ⟨by simp, rfl, hm⟩
  | cons d ds ih =>
      intro t hv hm hall hlo hhi
      have hlen : ((d :: ds).length : Int) = (ds.length : Int) + 1 := by
        push_cast [List.length_cons]
        ring
      have hlist0 : (0 : Int) ≤ (ds.length : Int) := Nat.cast_nonneg _
      have hd : inI64 d := hall d (List.mem_cons_self d ds)
      have hadj := dsecAdj_bound t.nsec d hd
      have hs1 : -9223372036854775808 ≤ t.sec + dsecAdj t.nsec d := by omega
      have hs2 : t.sec + dsecAdj t.nsec d ≤ 9223372036854775807 := by omega
      obtain ⟨hsec, hloc, hinst, hval⟩ := Add_spec t d hv hs1 hs2
      have hm' : (t.Add d).mono = none := Add_mono_none hm d
      have hall' : ∀ x ∈ ds, inI64 x := fun x hx => hall x (List.mem_cons_of_mem d hx)
      have hlo' : -9223372036854775808 + 9223372037 * (ds.length : Int) ≤ (t.Add d).sec := by
        rw [hsec]; omega
      have hhi' : (t.Add d).sec ≤ 9223372036854775807 - 9223372037 * (ds.length : Int) := by
        rw [hsec]; omega
      have step := ih (t.Add d) hval hm' hall' hlo' hhi'
      refine ⟨?_, ?_, ?_⟩
      · show (List.foldl Time.Add (t.Add d) ds).instNanos = t.instNanos + (d :: ds).sum
        rw [step.1, hinst, List.sum_cons]
        ring
      · show (List.foldl Time.Add (t.Add d) ds).loc = t.loc
        rw [step.2.1, hloc]
      · exact step.2.2

/-- The absolute instant of any representable Go time is bounded above
by the instant of the maximal int64 seconds with maximal nanoseconds. -/
theorem instNanos_le_of_valid {t : Time} (hv : ValidTime t) :
    t.instNanos ≤ (9223372036854775807 - 62135596800) * 1000000000 + 999999999 := by
  obtain ⟨_, hvb, _, hvd, _⟩ := hv
  unfold Time.instNanos
  omega

/-- Reading a cell other than the one mutated is unchanged. -/
theorem nowH_applyMuts_ne (r j : Nat) (ops : List MutOp) (h : Heap)
    (hne : j ≠ r) :
    nowH (applyMuts r ops h) j = nowH h j := by
  induction ops generalizing h with
  | nil => rfl
  | cons op ops ih =>
      show nowH (applyMuts r ops (applyMut r op h)) j = nowH h j
      rw [ih]
      cases op <;> simp [applyMut, nowH, Function.update_noteq hne]

end ClockSpec

namespace ClockSpec

/-- C1: a freshly constructed fake clock's Now() returns exactly the
Unix epoch instant (zero nanoseconds since the epoch) in the UTC
timezone — a fixed constant independent of the host's current time. -/
theorem newFake_now_is_epoch_utc :
    NewFake.Now = epochUTC ∧ epochUTC.instNanos = 0 ∧ epochUTC.loc = Loc.utc := by
  refine ⟨newFake_t, rfl, rfl⟩

/-- C2: for every fake clock (hence every prior stored value) and every
instant t, Set(t) followed by Now() returns exactly t, including when t
precedes the prior stored value. -/
theorem set_then_now_roundtrip (f : Fake) (t : Time) :
    (f.Set t).Now = t := by
  rfl

/-- C3 (amended): for all int64 durations d1 and d2 whose sum still
fits in int64, Add(d1) then Add(d2) on a fresh fake clock observes the
same Now() as a single Add(d1 + d2) on a fresh fake clock.  When the
sum overflows, the program's duration addition wraps and the results
differ (see the counterexample). -/
theorem add_additive_from_fresh (d1 d2 : Duration)
    (h1 : inI64 d1) (h2 : inI64 d2) (h12 : inI64 (d1 + d2)) :
    ((NewFake.Add d1).Add d2).Now = (NewFake.Add (d1 + d2)).Now := by
  show (NewFake.t.Add d1).Add d2 = NewFake.t.Add (d1 + d2)
  rw [newFake_t]
  have hsec0 : epochUTC.sec = 62135596800 := rfl
  have hb1 := dsecAdj_bound epochUTC.nsec d1 h1
  obtain ⟨hsec1, hloc1, hinst1, hval1⟩ :=
    Add_spec epochUTC d1 epochUTC_valid (by omega) (by omega)
  have hb2 := dsecAdj_bound (epochUTC.Add d1).nsec d2 h2
  obtain ⟨hsec2, hloc2, hinst2, hval2⟩ :=
    Add_spec (epochUTC.Add d1) d2 hval1 (by omega) (by omega)
  have hb12 := dsecAdj_bound epochUTC.nsec (d1 + d2) h12
  obtain ⟨hsecR, hlocR, hinstR, hvalR⟩ :=
    Add_spec epochUTC (d1 + d2) epochUTC_valid (by omega) (by omega)
  have hm0 : epochUTC.mono = none := rfl
  refine time_eq_of_wall
    (Add_mono_none (Add_mono_none hm0 d1) d2) (Add_mono_none hm0 (d1 + d2))
    ?_ hval2.2.2.1 hval2.2.2.2.1 hvalR.2.2.1 hvalR.2.2.2.1 ?_
  · rw [hloc2, hloc1, hlocR]
  · rw [hinst2, hinst1, hinstR]
    ring

/-- C3 counterexample: at d1 = d2 = 2^62 nanoseconds the program's
duration sum d1 + d2 wraps around int64 to -2^63, so two Adds land
about 292 years after the epoch while the single Add of the (wrapped)
sum lands before it. -/
theorem add_additive_wrap_cex :
    ((NewFake.Add 4611686018427387904).Add 4611686018427387904).Now ≠
      (NewFake.Add (wrap64 (4611686018427387904 + 4611686018427387904))).Now := by
  decide

/-- C3 witness: the amended additivity at the concrete in-range pair
d1 = 1, d2 = 2. -/
theorem add_additive_from_fresh_witness :
    ((NewFake.Add 1).Add 2).Now = (NewFake.Add (1 + 2)).Now :=
  add_additive_from_fresh 1 2 (by decide) (by decide) (by decide)

/-- C4 (amended): for every representable fake clock state and int64
duration d, as long as the shifted internal seconds stay inside int64
(no saturation), Add(d) moves the stored instant by exactly d — so a
subsequent Now() returns s plus d — and keeps the location; Add has no
failing path for any input.  At the int64 extreme the seconds saturate
and the instant does not move (see the counterexample). -/
theorem add_shifts_stored_instant (f : Fake) (d : Duration)
    (hv : ValidTime f.t) (_hd : inI64 d)
    (hs : inI64 (f.t.sec + dsecAdj f.t.nsec d)) :
    (f.Add d).Now.instNanos = f.t.instNanos + d ∧
    (f.Add d).Now.loc = f.t.loc ∧
    ∀ host, (runOp host (ClockOp.fakeAddOp f d)).isSome = true := by
  obtain ⟨hsec, hloc, hinst, _⟩ := Add_spec f.t d hv hs.1 hs.2
  exact ⟨hinst, hloc, fun _ => rfl⟩

/-- C4 counterexample: with the stored time set to the maximal
representable instant time.Unix(9223372036854775807 - 62135596800, 0),
Add of one second saturates the int64 seconds and Now() does not return
s plus d. -/
theorem add_saturates_cex :
    ¬ (((NewFake.Set maxSecT).Add 1000000000).Now.instNanos =
        maxSecT.instNanos + 1000000000) := by
  decide

/-- C4 witness: the amended shift property at the fresh clock and a one
second duration. -/
theorem add_shifts_stored_instant_witness :
    (NewFake.Add 1000000000).Now.instNanos = NewFake.t.instNanos + 1000000000 ∧
    (NewFake.Add 1000000000).Now.loc = NewFake.t.loc ∧
    ∀ host, (runOp host (ClockOp.fakeAddOp NewFake 1000000000)).isSome = true :=
  add_shifts_stored_instant NewFake 1000000000 (by decide) (by decide) (by decide)

/-- C5: reading the clock is effect-free — Now() hands back the stored
value and leaves the state exactly as it was, so only Add and Set ever
change the stored instant; and because the value is returned as a copy
(Go time.Time is a value, and the model has no references into the
state), any change a caller makes to that copy, modelled as an
arbitrary function g applied to it, leaves what a subsequent Now()
observes untouched. -/
theorem now_frame (f : Fake) (g : Time → Time) :
    Fake.NowS f = (f.t, f) ∧
    (Fake.NowS f).2.Now = f.t ∧
    (g (Fake.NowS f).1, (Fake.NowS f).2.Now).2 = f.t := by
  exact ⟨rfl, rfl, rfl⟩

/-- C6: two fake clocks obtained from separate NewFake calls are
distinct allocations, and any sequence of Add and Set mutations
applied through either handle leaves the value the other handle's
Now() returns unchanged. -/
theorem separate_fakes_independent (h : Heap) (ops : List MutOp) :
    (newFakeH h).1 ≠ (newFakeH (newFakeH h).2).1 ∧
    nowH (applyMuts (newFakeH h).1 ops (newFakeH (newFakeH h).2).2)
        (newFakeH (newFakeH h).2).1 =
      nowH (newFakeH (newFakeH h).2).2 (newFakeH (newFakeH h).2).1 ∧
    nowH (applyMuts (newFakeH (newFakeH h).2).1 ops (newFakeH (newFakeH h).2).2)
        (newFakeH h).1 =
      nowH (newFakeH (newFakeH h).2).2 (newFakeH h).1 := by
  refine ⟨by simp [newFakeH], ?_, ?_⟩
  · exact nowH_applyMuts_ne _ _ _ _ (by simp [newFakeH])
  · exact nowH_applyMuts_ne _ _ _ _ (by simp [newFakeH])

/-- C7: Default() returns the package-level systemClock value on every
call, the sysClock type is stateless (it has exactly one value, so
every call yields the same instance), and its Now() returns the host
clock's reading verbatim, with no caching, rounding, or adjustment. -/
theorem default_stateless_and_verbatim :
    Default = systemClock ∧
    (∀ a b : sysClock, a = b) ∧
    (∀ (s : sysClock) (host : Time), s.Now host = host) := by
  refine ⟨rfl, ?_, fun _ _ => rfl⟩
  intro a b
  cases a
  cases b
  rfl

/-- C8: every operation of the package — Default, NewFake, Now on
either clock, Add, Set — is total: running it never reaches a failing
path (which the translation would render as none) for any input. -/
theorem every_operation_total (host : Time) (op : ClockOp) :
    (runOp host op).isSome = true := by
  cases op <;> rfl

/-- C9 (amended): the write lock makes each Add atomic, so a concurrent
run of N callers is some serial order ds of the N additions; for every
such order of int64 deltas with N at most 9 * 10^8 — enough that the
int64 seconds cannot saturate — a final Now() observes the epoch
advanced by exactly the sum of all the deltas: no update is lost.  Past
the representable range the seconds saturate and updates are lost (see
the counterexample). -/
theorem concurrent_adds_sum (ds : List Duration)
    (h1 : ∀ d ∈ ds, inI64 d) (h2 : ds.length ≤ 900000000) :
    (applyAdds ds NewFake).Now.instNanos = epochUTC.instNanos + ds.sum ∧
    (applyAdds ds NewFake).Now.loc = Loc.utc ∧
    (applyAdds ds NewFake).Now.mono = none := by
  have hlen : (ds.length : Int) ≤ 900000000 := by exact_mod_cast h2
  have hlen0 : (0 : Int) ≤ (ds.length : Int) := Nat.cast_nonneg _
  have hsec0 : epochUTC.sec = 62135596800 := rfl
  have hfold := foldl_Add_exact ds epochUTC epochUTC_valid rfl h1
    (by omega) (by omega)
  have hAT : (applyAdds ds NewFake).t = List.foldl Time.Add epochUTC ds := by
    rw [applyAdds_t, newFake_t]
  refine ⟨?_, ?_, ?_⟩
  · show (applyAdds ds NewFake).t.instNanos = _
    rw [hAT, hfold.1]
  · show (applyAdds ds NewFake).t.loc = _
    rw [hAT, hfold.2.1]
    rfl
  · show (applyAdds ds NewFake).t.mono = none
    rw [hAT]
    exact hfold.2.2

/-- C9 counterexample: one billion concurrent Adds of the maximal int64
duration ask for an instant about 2.9 * 10^11 years after the epoch;
time.Time's int64 seconds saturate long before that, so the final Now()
is strictly below the epoch plus the sum and updates are lost. -/
theorem concurrent_adds_saturation_cex :
    ¬ ((applyAdds (List.replicate 1000000000 9223372036854775807) NewFake).Now.instNanos
        = epochUTC.instNanos
          + (List.replicate 1000000000 (9223372036854775807 : Int)).sum) := by
  intro hEq
  have hv := foldl_Add_valid (List.replicate 1000000000 (9223372036854775807 : Int))
    epochUTC epochUTC_valid
  have hub := instNanos_le_of_valid hv
  have hsum : (List.replicate 1000000000 (9223372036854775807 : Int)).sum
      = 1000000000 * 9223372036854775807 := by
    rw [List.sum_replicate, nsmul_eq_mul]
    norm_num
  have h0 : epochUTC.instNanos = 0 := rfl
  rw [fake_now_t, applyAdds_t, newFake_t, hsum, h0] at hEq
  have key : ∀ x : Int,
      x ≤ (9223372036854775807 - 62135596800) * 1000000000 + 999999999 →
      x = 0 + 1000000000 * 9223372036854775807 → False := by
    intro x hx1 hx2
    omega
  exact key _ hub hEq

/-- C9 witness: the amended no-lost-updates property at the concrete
serialisation [1, -2]. -/
theorem concurrent_adds_sum_witness :
    (applyAdds [1, -2] NewFake).Now.instNanos
        = epochUTC.instNanos + ([1, -2] : List Duration).sum ∧
    (applyAdds [1, -2] NewFake).Now.loc = Loc.utc ∧
    (applyAdds [1, -2] NewFake).Now.mono = none :=
  concurrent_adds_sum [1, -2] (by decide) (by decide)

/-- C10: Set(t) stores t's exact representation — internal seconds,
nanoseconds, location and monotonic reading included; every subsequent
Add keeps the stored location, and no mutation re-establishes the UTC
location chosen at construction, so after Set(t) a Now() result carries
t's location, whatever it is. -/
theorem set_stores_exact_representation (f : Fake) (t : Time)
    (ds : List Duration) :
    (f.Set t).t = t ∧
    (f.Set t).t.mono = t.mono ∧
    (f.Set t).Now.loc = t.loc ∧
    (applyAdds ds (f.Set t)).t.loc = t.loc := by
  refine ⟨rfl, rfl, rfl, ?_⟩
  rw [applyAdds_t]
  exact foldl_Add_loc ds t

end ClockSpec
